import Mathlib

/-!
Shallow embedding of the day-timeline scheduler of `src/app.py` (functions
`parse_hhmm_to_minutes`, `minutes_to_hhmm`, and the scheduling core of
`refresh_timeline`: interval classification, `find_first_slot` packing and
timeline assembly), together with proofs settling the specification claims.

Python text values are modelled as `List Char`; Python `int` as `Int`;
Python `float` durations as `Rat` with round-half-to-even.
-/

/-- Python whitespace characters stripped by `str.strip()` (ASCII subset). -/
def pySpace (c : Char) : Bool :=
  c = ' ' || c = '\t' || c = '\n' || c = '\r' || c = Char.ofNat 11 || c = Char.ofNat 12

/-- Model of Python `str.strip()`. -/
def pyStrip (xs : List Char) : List Char :=
  ((xs.dropWhile pySpace).reverse.dropWhile pySpace).reverse

/-- Model of Python `str.split(":")`. -/
def splitOnColon : List Char → List (List Char)
  | [] => [[]]
  | c :: rest =>
    if c = ':' then [] :: splitOnColon rest
    else
      match splitOnColon rest with
      | [] => [[c]]
      | p :: ps => (c :: p) :: ps

/-- Numeric value of a decimal digit character. -/
def digitVal (c : Char) : Nat := c.toNat - 48

/-- Accumulating parser for the digits of a Python integer literal
(single underscores allowed between digits, as in Python `int()`). -/
def pyDigitsGo : Nat → List Char → Option Nat
  | acc, [] => some acc
  | acc, '_' :: c :: cs =>
    if c.isDigit then pyDigitsGo (acc * 10 + digitVal c) cs else none
  | _, ['_'] => none
  | acc, c :: cs =>
    if c.isDigit then pyDigitsGo (acc * 10 + digitVal c) cs else none

/-- Digit-sequence parser: at least one digit, underscores between digits. -/
def pyDigits : List Char → Option Nat
  | [] => none
  | c :: cs => if c.isDigit then pyDigitsGo (digitVal c) cs else none

/-- Model of Python `int(text)`: strips whitespace, optional sign, digits. -/
def pyInt (xs : List Char) : Option Int :=
  match pyStrip xs with
  | '+' :: rest => (pyDigits rest).map (fun n => (n : Int))
  | '-' :: rest => (pyDigits rest).map (fun n => -(n : Int))
  | rest => (pyDigits rest).map (fun n => (n : Int))

/-- Range check and combination step of `parse_hhmm_to_minutes`: the body run
on the two sides of the colon. -/
def hhmmOfParts (p1 p2 : List Char) : Option Int :=
  match pyInt p1, pyInt p2 with
  | some hour, some minute =>
    if hour < 0 || hour > 23 || minute < 0 || minute > 59 then none
    else some (hour * 60 + minute)
  | _, _ => none

/-- Embedding of `parse_hhmm_to_minutes` from `src/app.py`. -/
def parse_hhmm_to_minutes (value : List Char) : Option Int :=
  let clean := pyStrip value
  if clean.isEmpty then none
  else
    match splitOnColon clean with
    | [p1, p2] => hhmmOfParts p1 p2
    | _ => none

/-- Model of the Python format `f"{n:02d}"` for a non-negative integer. -/
def pad2 (n : Nat) : List Char :=
  let ds := Nat.toDigits 10 n
  if n < 10 then '0' :: ds else ds

/-- Embedding of `minutes_to_hhmm` from `src/app.py`. -/
def minutes_to_hhmm (minutes : Int) : List Char :=
  let clipped := max 0 (min (24 * 60) minutes)
  let hour := clipped.toNat / 60
  let minute := clipped.toNat % 60
  if clipped = 24 * 60 then "24:00".data
  else pad2 hour ++ ':' :: pad2 minute

theorem splitOnColon_length (xs : List Char) :
    (splitOnColon xs).length = xs.count ':' + 1 := by
  induction xs with
  | nil => simp [splitOnColon]
  | cons c rest ih =>
    by_cases hc : c = ':'
    · subst hc
      simp [splitOnColon, List.count_cons, ih]
    · simp only [splitOnColon, if_neg hc]
      rcases hsp : splitOnColon rest with _ | ⟨p, ps⟩
      · simp [hsp] at ih
      · rw [hsp] at ih
        simp only [List.length_cons] at ih ⊢
        rw [List.count_cons]
        simp [hc, ← ih]

theorem hhmmOfParts_some_of {p1 p2 : List Char} {h m : Int}
    (h1 : pyInt p1 = some h) (h2 : pyInt p2 = some m)
    (h0 : 0 ≤ h) (h23 : h ≤ 23) (m0 : 0 ≤ m) (m59 : m ≤ 59) :
    hhmmOfParts p1 p2 = some (h * 60 + m) := by
  simp only [hhmmOfParts, h1, h2]
  rw [if_neg]
  simp only [Bool.or_eq_true, decide_eq_true_eq, not_or]
  push_neg
  exact ⟨⟨⟨h0, h23⟩, m0⟩, m59⟩

theorem hhmmOfParts_bounds {p1 p2 : List Char} {m : Int}
    (h : hhmmOfParts p1 p2 = some m) : 0 ≤ m ∧ m ≤ 1439 := by
  unfold hhmmOfParts at h
  rcases h1 : pyInt p1 with _ | hr <;> rw [h1] at h
  · simp at h
  · rcases h2 : pyInt p2 with _ | mn <;> rw [h2] at h
    · simp at h
    · by_cases hrange : hr < 0 || hr > 23 || mn < 0 || mn > 59
      · simp [hrange] at h
      · simp only [hrange, if_false, Option.some.injEq, Bool.false_eq_true] at h
        simp only [Bool.or_eq_true, decide_eq_true_eq, not_or] at hrange
        push_neg at hrange
        obtain ⟨⟨⟨a1, a2⟩, a3⟩, a4⟩ := hrange
        omega

theorem parse_eq_hhmmOfParts {value : List Char} {p1 p2 : List Char}
    (hsp : splitOnColon (pyStrip value) = [p1, p2]) :
    parse_hhmm_to_minutes value = hhmmOfParts p1 p2 := by
  have hne : (pyStrip value).isEmpty = false := by
    rcases hst : pyStrip value with _ | ⟨c, cs⟩
    · rw [hst] at hsp; simp [splitOnColon] at hsp
    · rfl
  simp [parse_hhmm_to_minutes, hne, hsp]

theorem parse_hhmm_bounds {value : List Char} {m : Int}
    (h : parse_hhmm_to_minutes value = some m) : 0 ≤ m ∧ m ≤ 1439 := by
  unfold parse_hhmm_to_minutes at h
  by_cases he : (pyStrip value).isEmpty
  · simp [he] at h
  · simp only [he, if_false, Bool.false_eq_true] at h
    rcases hsp : splitOnColon (pyStrip value) with _ | ⟨p1, tl⟩ <;> rw [hsp] at h
    · simp at h
    · rcases tl with _ | ⟨p2, tl2⟩
      · simp at h
      · rcases tl2 with _ | _
        · exact hhmmOfParts_bounds (by simpa using h)
        · simp at h

/-- C7: `parse_hhmm_to_minutes` fails exactly when the trimmed input is empty,
does not contain exactly one colon separator, has a side that is not an
integer, or has hour outside `[0,23]` or minute outside `[0,59]`; for every
other input it returns `hour*60 + minute`. -/
theorem parse_hhmm_to_minutes_spec (value : List Char) :
    (parse_hhmm_to_minutes value = none ↔
      (pyStrip value = [] ∨ (pyStrip value).count ':' ≠ 1 ∨
       (∃ a b, splitOnColon (pyStrip value) = [a, b] ∧
          (pyInt a = none ∨ pyInt b = none)) ∨
       (∃ a b h m, splitOnColon (pyStrip value) = [a, b] ∧
          pyInt a = some h ∧ pyInt b = some m ∧
          (h < 0 ∨ 23 < h ∨ m < 0 ∨ 59 < m)))) ∧
    (∀ a b h m, splitOnColon (pyStrip value) = [a, b] →
      pyInt a = some h → pyInt b = some m →
      0 ≤ h → h ≤ 23 → 0 ≤ m → m ≤ 59 →
      parse_hhmm_to_minutes value = some (h * 60 + m)) := by
  have hlen : (splitOnColon (pyStrip value)).length = (pyStrip value).count ':' + 1 :=
    splitOnColon_length _
  constructor
  · by_cases he : (pyStrip value).isEmpty
    · have hnil : pyStrip value = [] := List.isEmpty_iff.mp he
      simp [parse_hhmm_to_minutes, he, hnil]
    · have hne : ¬ pyStrip value = [] := fun hc => he (by simp [hc])
      rcases hsp : splitOnColon (pyStrip value) with _ | ⟨p1, tl⟩
      · rw [hsp] at hlen; simp at hlen
      · rcases tl with _ | ⟨p2, tl2⟩
        · -- one part: count = 0
          rw [hsp] at hlen
          simp only [List.length_cons, List.length_nil] at hlen
          have hone : parse_hhmm_to_minutes value = none := by
            simp [parse_hhmm_to_minutes, he, hsp]
          simp only [hone, true_iff]
          exact Or.inr (Or.inl (by omega))
        · rcases tl2 with _ | ⟨p3, tl3⟩
          · -- exactly two parts: count = 1
            rw [hsp] at hlen
            simp only [List.length_cons, List.length_nil] at hlen
            have hcount : (pyStrip value).count ':' = 1 := by omega
            rw [parse_eq_hhmmOfParts hsp]
            rcases h1 : pyInt p1 with _ | hr
            · simp only [hhmmOfParts, h1, true_iff]
              exact Or.inr (Or.inr (Or.inl ⟨p1, p2, rfl, Or.inl h1⟩))
            · rcases h2 : pyInt p2 with _ | mn
              · have : hhmmOfParts p1 p2 = none := by simp [hhmmOfParts, h1, h2]
                simp only [this, true_iff]
                exact Or.inr (Or.inr (Or.inl ⟨p1, p2, rfl, Or.inr h2⟩))
              · by_cases hrange : hr < 0 || hr > 23 || mn < 0 || mn > 59
                · have : hhmmOfParts p1 p2 = none := by
                    simp [hhmmOfParts, h1, h2, hrange]
                  simp only [this, true_iff]
                  refine Or.inr (Or.inr (Or.inr ⟨p1, p2, hr, mn, rfl, h1, h2, ?_⟩))
                  simp only [Bool.or_eq_true, decide_eq_true_eq] at hrange
                  tauto
                · have hval : hhmmOfParts p1 p2 = some (hr * 60 + mn) := by
                    simp only [hhmmOfParts, h1, h2, hrange, if_false, Bool.false_eq_true]
                  rw [hval]
                  simp only [Bool.or_eq_true, decide_eq_true_eq, not_or] at hrange
                  push_neg at hrange
                  obtain ⟨⟨⟨a1, a2⟩, a3⟩, a4⟩ := hrange
                  constructor
                  · intro hc; exact absurd hc (by simp)
                  · rintro (hd | hd | hd | hd)
                    · exact absurd hd hne
                    · exact absurd hcount hd
                    · exfalso
                      obtain ⟨a, b, hab, hcase⟩ := hd
                      injection hab with e1 e2
                      injection e2 with e2 _
                      subst e1; subst e2
                      rcases hcase with hc | hc
                      · rw [h1] at hc; exact Option.noConfusion hc
                      · rw [h2] at hc; exact Option.noConfusion hc
                    · exfalso
                      obtain ⟨a, b, h', m', hab, ha, hb, hcase⟩ := hd
                      injection hab with e1 e2
                      injection e2 with e2 _
                      subst e1; subst e2
                      rw [h1] at ha; rw [h2] at hb
                      injection ha with ha; injection hb with hb
                      subst ha; subst hb
                      omega
          · -- three or more parts: count ≥ 2
            rw [hsp] at hlen
            simp only [List.length_cons] at hlen
            have hnone : parse_hhmm_to_minutes value = none := by
              simp [parse_hhmm_to_minutes, he, hsp]
            simp only [hnone, true_iff]
            exact Or.inr (Or.inl (by omega))
  · intro a b h m hab ha hb h0 h23 m0 m59
    rw [parse_eq_hhmmOfParts hab]
    exact hhmmOfParts_some_of ha hb h0 h23 m0 m59

/-- C7 witness: the spec applied at the concrete input `"9:30"`. -/
theorem parse_hhmm_to_minutes_spec_witness :
    parse_hhmm_to_minutes "9:30".data = some 570 :=
  (parse_hhmm_to_minutes_spec "9:30".data).2 "9".data "30".data 9 30
    (by decide) (by decide) (by decide) (by decide) (by decide) (by decide) (by decide)

set_option maxHeartbeats 2000000 in
/-- C8: for every hour in `[0,23]` and minute in `[0,59]`, parsing the
formatted clock string round-trips. -/
theorem parse_format_roundtrip :
    ∀ h : Nat, h < 24 → ∀ m : Nat, m < 60 →
      parse_hhmm_to_minutes (minutes_to_hhmm ((h : Int) * 60 + m)) =
        some ((h : Int) * 60 + m) := by decide

/-- C8 witness: round-trip at 09:05. -/
theorem parse_format_roundtrip_witness :
    parse_hhmm_to_minutes (minutes_to_hhmm ((9 : Int) * 60 + 5)) =
      some ((9 : Int) * 60 + 5) :=
  parse_format_roundtrip 9 (by decide) 5 (by decide)

/-- C9: `minutes_to_hhmm` clamps its input to `[0,1440]` and renders the
zero-padded `"HH:MM"` form, except that the clamped value `1440` renders as
`"24:00"`; in particular `1440 ↦ "24:00"`, `-5 ↦ "00:00"`, `1500 ↦ "24:00"`. -/
theorem minutes_to_hhmm_spec :
    (∀ m : Int, minutes_to_hhmm m = minutes_to_hhmm (max 0 (min 1440 m))) ∧
    minutes_to_hhmm 1440 = "24:00".data ∧
    minutes_to_hhmm (-5) = "00:00".data ∧
    minutes_to_hhmm 1500 = "24:00".data ∧
    (∀ m : Int, 0 ≤ m → m < 1440 →
      minutes_to_hhmm m = pad2 (m.toNat / 60) ++ ':' :: pad2 (m.toNat % 60)) := by
  refine ⟨?_, by decide, by decide, by decide, ?_⟩
  · intro m
    have hclip : max 0 (min (24 * 60) (max 0 (min 1440 m))) = max 0 (min (24 * 60) m) := by
      omega
    simp only [minutes_to_hhmm, hclip]
  · intro m h0 h1440
    have hclip : max 0 (min (24 * 60) m) = m := by omega
    simp only [minutes_to_hhmm, hclip]
    rw [if_neg (by omega)]

/-- C9 witness: the zero-padded rendering conjunct applied at 540. -/
theorem minutes_to_hhmm_spec_witness :
    minutes_to_hhmm 540 = pad2 ((540 : Int).toNat / 60) ++ ':' :: pad2 ((540 : Int).toNat % 60) :=
  minutes_to_hhmm_spec.2.2.2.2 540 (by decide) (by decide)

/-- Insertion step of a stable insertion sort (model of Python stable sort). -/
def insertSorted {α : Type} (le : α → α → Bool) (a : α) : List α → List α
  | [] => [a]
  | b :: bs => if le a b then a :: b :: bs else b :: insertSorted le a bs

/-- Stable insertion sort; extensionally equal to Python `sorted` for any
key-based comparison, since stable sorts agree. -/
def sortBy {α : Type} (le : α → α → Bool) : List α → List α
  | [] => []
  | x :: xs => insertSorted le x (sortBy le xs)

theorem insertSorted_perm {α : Type} (le : α → α → Bool) (a : α) (l : List α) :
    (insertSorted le a l).Perm (a :: l) := by
  induction l with
  | nil => simp [insertSorted]
  | cons b bs ih =>
    simp only [insertSorted]
    by_cases hle : le a b
    · simp [hle]
    · simp only [hle, if_false, Bool.false_eq_true]
      exact (ih.cons b).trans (List.Perm.swap a b bs)

theorem sortBy_perm {α : Type} (le : α → α → Bool) (l : List α) :
    (sortBy le l).Perm l := by
  induction l with
  | nil => simp [sortBy]
  | cons x xs ih =>
    exact (insertSorted_perm le x (sortBy le xs)).trans (ih.cons x)

theorem insertSorted_pairwise {α : Type} (le : α → α → Bool)
    (htot : ∀ a b, le a b = false → le b a = true)
    (htr : ∀ a b c, le a b = true → le b c = true → le a c = true)
    (a : α) (l : List α) (hl : l.Pairwise (fun x y => le x y = true)) :
    (insertSorted le a l).Pairwise (fun x y => le x y = true) := by
  induction l with
  | nil => simp [insertSorted]
  | cons b bs ih =>
    rcases List.pairwise_cons.mp hl with ⟨hb, hbs⟩
    simp only [insertSorted]
    by_cases hle : le a b
    · simp only [hle, if_true]
      refine List.pairwise_cons.mpr ⟨?_, hl⟩
      intro x hx
      rcases List.mem_cons.mp hx with rfl | hx
      · exact hle
      · exact htr a b x hle (hb x hx)
    · simp only [hle, if_false, Bool.false_eq_true]
      refine List.pairwise_cons.mpr ⟨?_, ih hbs⟩
      intro x hx
      have hx' : x = a ∨ x ∈ bs :=
        List.mem_cons.mp ((insertSorted_perm le a bs).mem_iff.mp hx)
      rcases hx' with rfl | hx'
      · exact htot _ b (by simpa using hle)
      · exact hb x hx'

theorem sortBy_pairwise {α : Type} (le : α → α → Bool)
    (htot : ∀ a b, le a b = false → le b a = true)
    (htr : ∀ a b c, le a b = true → le b c = true → le a c = true)
    (l : List α) : (sortBy le l).Pairwise (fun x y => le x y = true) := by
  induction l with
  | nil => simp [sortBy]
  | cons x xs ih => exact insertSorted_pairwise le htot htr x (sortBy le xs) ih

theorem insertSorted_filter {α : Type} (le : α → α → Bool) (p : α → Bool)
    (hkey : ∀ x y, p x = true → p y = true → le x y = true)
    (a : α) (l : List α) :
    (insertSorted le a l).filter p =
      if p a then a :: l.filter p else l.filter p := by
  induction l with
  | nil =>
    simp only [insertSorted]
    by_cases hpa : p a <;> simp [List.filter_cons, hpa]
  | cons b bs ih =>
    simp only [insertSorted]
    by_cases hle : le a b
    · by_cases hpa : p a <;>
        simp [hle, List.filter_cons, hpa]
    · simp only [hle, if_false, Bool.false_eq_true, List.filter_cons, ih]
      by_cases hpa : p a
      · have hpb : p b = false := by
          by_contra hc
          exact absurd (hkey a b hpa (by simpa using hc)) (by simpa using hle)
        simp [hpa, hpb]
      · by_cases hpb : p b <;> simp [hpa, hpb]

theorem sortBy_filter {α : Type} (le : α → α → Bool) (p : α → Bool)
    (hkey : ∀ x y, p x = true → p y = true → le x y = true)
    (l : List α) : (sortBy le l).filter p = l.filter p := by
  induction l with
  | nil => simp [sortBy]
  | cons x xs ih =>
    rw [sortBy, insertSorted_filter le p hkey, List.filter_cons, ih]

namespace App

/-- Task record of `src/app.py` (dataclass `Task`); `estimated_hours` and
`spent_hours` model Python floats as rationals. -/
structure Task where
  id : Int
  day : List Char
  task_type : List Char
  title : List Char
  estimated_hours : Rat
  start_time : List Char
  spent_hours : Rat
  is_done : Bool
deriving DecidableEq

/-- Python `round` applied to the rational `a / b` with `b > 0` (banker's
rounding, half to even): floor, then compare twice the remainder with `b`. -/
def roundHalfEven (a b : Int) : Int :=
  let f := a.ediv b
  let r2 := 2 * (a - f * b)
  if r2 < b then f
  else if b < r2 then f + 1
  else if f % 2 = 0 then f else f + 1

/-- Task duration in minutes, `int(round(t.estimated_hours * 60))`: round
half to even of the exact rational `(num * 60) / den`. -/
def durationMinutes (t : Task) : Int :=
  roundHalfEven (t.estimated_hours.num * 60) (t.estimated_hours.den : Int)

/-- End-of-day bound `day_end = 24 * 60` of `refresh_timeline`. -/
def day_end : Int := 24 * 60

/-- Scheduler interval `(start, end, task, packed)`; `stop` renders the
source's `end` field. -/
structure Interval where
  start : Int
  stop : Int
  task : Task
  packed : Bool
deriving DecidableEq

/-- Classification loop of `refresh_timeline` (lines 619-635 of
`src/app.py`): split tasks into fixed intervals and unscheduled tasks. -/
def classifyTasks : List Task → List Interval × List Task
  | [] => ([], [])
  | t :: ts =>
    let rest := classifyTasks ts
    if t.estimated_hours ≤ 0 then (rest.1, t :: rest.2)
    else if t.start_time.isEmpty then (rest.1, t :: rest.2)
    else
      match parse_hhmm_to_minutes t.start_time with
      | none => (rest.1, t :: rest.2)
      | some s =>
        let e := min day_end (s + durationMinutes t)
        if e ≤ s then (rest.1, t :: rest.2)
        else (⟨s, e, t, false⟩ :: rest.1, rest.2)

/-- Comparison by interval start (the sort key `lambda i: i[0]`). -/
def startLe (a b : Interval) : Bool := decide (a.start ≤ b.start)

/-- The sorted fixed-interval list (`fixed_intervals.sort(key=...)`). -/
def fixedIntervals (tasks : List Task) : List Interval :=
  sortBy startLe (classifyTasks tasks).1

/-- The unscheduled-task list produced by the classification loop. -/
def unscheduledTasks (tasks : List Task) : List Task :=
  (classifyTasks tasks).2

/-- Condition under which the spec classifies a task as unscheduled
(written from the claim: non-positive hours, empty or unparsable start
time, or an empty clipped interval). -/
def unschedCond (t : Task) : Bool :=
  decide (t.estimated_hours ≤ 0) || t.start_time.isEmpty ||
    (match parse_hhmm_to_minutes t.start_time with
     | none => true
     | some s => decide (min 1440 (s + durationMinutes t) ≤ s))

/-- The fixed interval the spec assigns to a schedulable task. -/
def fixedOf (t : Task) : Interval :=
  match parse_hhmm_to_minutes t.start_time with
  | some s => ⟨s, min 1440 (s + durationMinutes t), t, false⟩
  | none => ⟨0, 0, t, false⟩

theorem day_end_eq : day_end = 1440 := by decide

theorem unschedCond_cases (t : Task) :
    (¬ t.estimated_hours ≤ 0 → ¬ t.start_time.isEmpty = true →
      ∀ s, parse_hhmm_to_minutes t.start_time = some s →
      ¬ min day_end (s + durationMinutes t) ≤ s → unschedCond t = false) ∧
    (t.estimated_hours ≤ 0 → unschedCond t = true) ∧
    (t.start_time.isEmpty = true → unschedCond t = true) ∧
    (parse_hhmm_to_minutes t.start_time = none → unschedCond t = true) ∧
    (∀ s, parse_hhmm_to_minutes t.start_time = some s →
      min day_end (s + durationMinutes t) ≤ s → unschedCond t = true) := by
  refine ⟨?_, ?_, ?_, ?_, ?_⟩
  · intro h1 h2 s hp h4
    rw [day_end_eq] at h4
    simp [unschedCond, h1, h2, hp, h4]
  · intro h1; simp [unschedCond, h1]
  · intro h2; simp [unschedCond, h2]
  · intro hp; simp [unschedCond, hp]
  · intro s hp h4
    rw [day_end_eq] at h4
    simp [unschedCond, hp, h4]

theorem classify_snd (tasks : List Task) :
    (classifyTasks tasks).2 = tasks.filter unschedCond := by
  induction tasks with
  | nil => simp [classifyTasks]
  | cons t ts ih =>
    by_cases h1 : t.estimated_hours ≤ 0
    · have hc := (unschedCond_cases t).2.1 h1
      simp [classifyTasks, h1, List.filter_cons, hc, ih]
    · by_cases h2 : t.start_time.isEmpty
      · have hc := (unschedCond_cases t).2.2.1 h2
        simp [classifyTasks, h1, h2, List.filter_cons, hc, ih]
      · rcases hp : parse_hhmm_to_minutes t.start_time with _ | s
        · have hc := (unschedCond_cases t).2.2.2.1 hp
          simp [classifyTasks, h1, h2, hp, List.filter_cons, hc, ih]
        · by_cases h4 : min day_end (s + durationMinutes t) ≤ s
          · have hc := (unschedCond_cases t).2.2.2.2 s hp h4
            simp [classifyTasks, h1, h2, hp, h4, List.filter_cons, hc, ih]
          · have hc := (unschedCond_cases t).1 h1 h2 s hp h4
            simp [classifyTasks, h1, h2, hp, h4, List.filter_cons, hc, ih]

theorem classify_fst (tasks : List Task) :
    (classifyTasks tasks).1 =
      (tasks.filter (fun t => ! unschedCond t)).map fixedOf := by
  induction tasks with
  | nil => simp [classifyTasks]
  | cons t ts ih =>
    by_cases h1 : t.estimated_hours ≤ 0
    · have hc := (unschedCond_cases t).2.1 h1
      simp [classifyTasks, h1, List.filter_cons, hc, ih]
    · by_cases h2 : t.start_time.isEmpty
      · have hc := (unschedCond_cases t).2.2.1 h2
        simp [classifyTasks, h1, h2, List.filter_cons, hc, ih]
      · rcases hp : parse_hhmm_to_minutes t.start_time with _ | s
        · have hc := (unschedCond_cases t).2.2.2.1 hp
          simp [classifyTasks, h1, h2, hp, List.filter_cons, hc, ih]
        · by_cases h4 : min day_end (s + durationMinutes t) ≤ s
          · have hc := (unschedCond_cases t).2.2.2.2 s hp h4
            simp [classifyTasks, h1, h2, hp, h4, List.filter_cons, hc, ih]
          · have hc := (unschedCond_cases t).1 h1 h2 s hp h4
            have hfix : fixedOf t = ⟨s, min day_end (s + durationMinutes t), t, false⟩ := by
              simp [fixedOf, hp, day_end_eq]
            simp [classifyTasks, h1, h2, hp, h4, List.filter_cons, hc, hfix, ih]

theorem startLe_total : ∀ a b : Interval, startLe a b = false → startLe b a = true := by
  intro a b h
  simp only [startLe, decide_eq_false_iff_not, not_le] at h
  simp only [startLe, decide_eq_true_eq]
  omega

theorem startLe_trans : ∀ a b c : Interval,
    startLe a b = true → startLe b c = true → startLe a c = true := by
  intro a b c hab hbc
  simp only [startLe, decide_eq_true_eq] at hab hbc ⊢
  omega

/-- C6: the classifier marks a task unscheduled exactly under the spec's
condition, otherwise produces the fixed interval
`(start, min(1440, start + round(hours*60)))`; the fixed intervals are
sorted by start (stably, ties keeping original order) and the unscheduled
list preserves input order. -/
theorem classifier_spec (tasks : List Task) :
    unscheduledTasks tasks = tasks.filter unschedCond ∧
    (classifyTasks tasks).1 =
      (tasks.filter (fun t => ! unschedCond t)).map fixedOf ∧
    (fixedIntervals tasks).Pairwise (fun a b => a.start ≤ b.start) ∧
    (∀ v : Int, (fixedIntervals tasks).filter (fun iv => iv.start == v) =
      (classifyTasks tasks).1.filter (fun iv => iv.start == v)) := by
  refine ⟨classify_snd tasks, classify_fst tasks, ?_, ?_⟩
  · exact (sortBy_pairwise startLe startLe_total startLe_trans _).imp
      (fun h => by simpa [startLe] using h)
  · intro v
    exact sortBy_filter startLe (fun iv => iv.start == v)
      (fun x y hx hy => by
        simp only [beq_iff_eq] at hx hy
        simp [startLe, hx, hy]) _

theorem unschedCond_false_elim {t : Task} (h : unschedCond t = false) :
    ∃ s, parse_hhmm_to_minutes t.start_time = some s ∧
      s < min day_end (s + durationMinutes t) := by
  rcases hp : parse_hhmm_to_minutes t.start_time with _ | s
  · rw [(unschedCond_cases t).2.2.2.1 hp] at h
    exact Bool.noConfusion h
  · refine ⟨s, rfl, ?_⟩
    by_contra h4
    push_neg at h4
    rw [(unschedCond_cases t).2.2.2.2 s hp h4] at h
    exact Bool.noConfusion h

theorem fixed_raw_bounds {tasks : List Task} {iv : Interval}
    (h : iv ∈ (classifyTasks tasks).1) :
    0 ≤ iv.start ∧ iv.start ≤ 1439 ∧ iv.start < iv.stop ∧ iv.stop ≤ 1440 ∧
      iv.packed = false := by
  rw [classify_fst] at h
  obtain ⟨t, ht, rfl⟩ := List.mem_map.mp h
  have hcond : unschedCond t = false := by
    have := (List.mem_filter.mp ht).2
    simpa using this
  obtain ⟨s, hp, hlt⟩ := unschedCond_false_elim hcond
  obtain ⟨hs0, hs1439⟩ := parse_hhmm_bounds hp
  have hfix : fixedOf t = ⟨s, min 1440 (s + durationMinutes t), t, false⟩ := by
    simp [fixedOf, hp]
  rw [day_end_eq] at hlt
  rw [hfix]
  refine ⟨hs0, hs1439, hlt, min_le_left _ _, rfl⟩

theorem mem_fixedIntervals_iff {tasks : List Task} {iv : Interval} :
    iv ∈ fixedIntervals tasks ↔ iv ∈ (classifyTasks tasks).1 :=
  (sortBy_perm startLe _).mem_iff

theorem fixed_bounds {tasks : List Task} {iv : Interval}
    (h : iv ∈ fixedIntervals tasks) :
    0 ≤ iv.start ∧ iv.start ≤ 1439 ∧ iv.start < iv.stop ∧ iv.stop ≤ 1440 ∧
      iv.packed = false :=
  fixed_raw_bounds (mem_fixedIntervals_iff.mp h)

/-- Cursor walk of `find_first_slot` over the sorted occupied list. -/
def slotWalk (duration : Int) : Int → List (Int × Int) → Option Int
  | cursor, [] => if day_end - cursor ≥ duration then some cursor else none
  | cursor, (s, e) :: rest =>
    if e ≤ cursor then slotWalk duration cursor rest
    else if s > cursor ∧ s - cursor ≥ duration then some cursor
    else slotWalk duration (max cursor e) rest

/-- Comparison of occupied pairs by start (the key `lambda x: x[0]`). -/
def pairLe (a b : Int × Int) : Bool := decide (a.1 ≤ b.1)

/-- Embedding of `find_first_slot` from `src/app.py`. -/
def find_first_slot (occupied : List (Int × Int)) (day_start : Int)
    (duration : Int) : Option Int :=
  if duration ≤ 0 then none
  else slotWalk duration day_start (sortBy pairLe occupied)

/-- The category priority list `TASK_TYPE_ORDER` of `src/app.py`. -/
def TASK_TYPE_ORDER : List (List Char) :=
  ["focus".data, "main".data, "small".data, "pleasure".data, "reserved".data]

/-- Category rank: index in `TASK_TYPE_ORDER`, or its length (5) for an
unknown category — exactly the sort key used in `refresh_timeline`. -/
def typeRank (ty : List Char) : Nat := TASK_TYPE_ORDER.findIdx (fun x => x == ty)

/-- Lexicographic comparison on `(category rank, task id)`. -/
def unschedKeyLe (a b : Task) : Bool :=
  decide (typeRank a.task_type < typeRank b.task_type) ||
    (typeRank a.task_type == typeRank b.task_type && decide (a.id ≤ b.id))

/-- The packer's processing order: stable sort of the unscheduled tasks. -/
def sortUnscheduled (l : List Task) : List Task := sortBy unschedKeyLe l

/-- Packing loop of `refresh_timeline` (lines 664-673 of `src/app.py`),
returning `(packed_intervals, occupied, not_placed_count)`. -/
def packLoop (day_start : Int) :
    List Task → List (Int × Int) → List Interval → Nat →
      List Interval × List (Int × Int) × Nat
  | [], occupied, packed, cnt => (packed, occupied, cnt)
  | t :: ts, occupied, packed, cnt =>
    let duration := durationMinutes t
    match find_first_slot occupied day_start duration with
    | none => packLoop day_start ts occupied packed (cnt + 1)
    | some slot =>
      let e := min day_end (slot + duration)
      packLoop day_start ts (occupied ++ [(slot, e)])
        (packed ++ [⟨slot, e, t, true⟩]) cnt

/-- The packer run of `refresh_timeline` for a task list and day start. -/
def packedResult (tasks : List Task) (ds : Int) :
    List Interval × List (Int × Int) × Nat :=
  packLoop ds (sortUnscheduled (unscheduledTasks tasks))
    ((fixedIntervals tasks).map (fun iv => (iv.start, iv.stop))) [] 0

/-- The intervals placed by the packer. -/
def packedIntervals (tasks : List Task) (ds : Int) : List Interval :=
  (packedResult tasks ds).1

/-- The occupied set after packing the first `n` sorted unscheduled tasks. -/
def occupiedState (tasks : List Task) (ds : Int) (n : Nat) : List (Int × Int) :=
  (packLoop ds ((sortUnscheduled (unscheduledTasks tasks)).take n)
    ((fixedIntervals tasks).map (fun iv => (iv.start, iv.stop))) [] 0).2.1

/-- The `not_placed_count` tally of the packer. -/
def notPlacedCount (tasks : List Task) (ds : Int) : Nat :=
  (packedResult tasks ds).2.2

/-- Timeline output element: an empty block, a task block, or an overlap
marker line. -/
inductive Block where
  | empty (start stop : Int)
  | task (start stop : Int) (t : Task) (packed : Bool)
  | overlap (start : Int)
deriving DecidableEq

/-- Embedding of `add_empty_block`: skips degenerate ranges. -/
def add_empty_block (s e : Int) : List Block :=
  if e ≤ s then [] else [Block.empty s e]

/-- Assembly walk of `refresh_timeline` (lines 727-745 of `src/app.py`). -/
def assembleLoop (day_start : Int) : Int → List Interval → List Block
  | cursor, [] =>
    if cursor < day_end then add_empty_block cursor day_end else []
  | cursor, iv :: rest =>
    if iv.stop ≤ day_start then assembleLoop day_start cursor rest
    else
      let s := if iv.start < day_start then day_start else iv.start
      (if s > cursor then add_empty_block cursor s else []) ++
      (if s < cursor then [Block.overlap s] else []) ++
      [Block.task s iv.stop iv.task iv.packed] ++
      assembleLoop day_start (max cursor iv.stop) rest

/-- The merged, start-sorted interval list fed to the assembly walk. -/
def allIntervals (tasks : List Task) (ds : Int) : List Interval :=
  sortBy startLe (fixedIntervals tasks ++ packedIntervals tasks ds)

/-- Day-start derivation of `refresh_timeline`/`get_day_start_minutes`:
parse the setting, falling back to 09:00 = 540 on any failure. -/
def day_start_of_setting (setting : List Char) : Int :=
  match parse_hhmm_to_minutes setting with
  | some m => m
  | none => 540

/-- Scheduling core of `refresh_timeline`: the emitted timeline elements and
the not-placed count. -/
def refresh_timeline (tasks : List Task) (setting : List Char) :
    List Block × Nat :=
  let ds := day_start_of_setting setting
  let intervals := allIntervals tasks ds
  (if intervals.isEmpty then add_empty_block ds day_end
   else assembleLoop ds ds intervals,
   notPlacedCount tasks ds)

/-- A position `p` is a feasible slot for duration `d`: at or after the day
start, within the day, and overlapping no occupied interval. -/
def FitsAt (occ : List (Int × Int)) (ds d p : Int) : Prop :=
  ds ≤ p ∧ p + d ≤ 1440 ∧ ∀ q ∈ occ, p + d ≤ q.1 ∨ q.2 ≤ p

instance (occ : List (Int × Int)) (ds d p : Int) : Decidable (FitsAt occ ds d p) := by
  unfold FitsAt
  infer_instance

theorem slotWalk_some {d : Int} (hd : 0 < d) :
    ∀ (l : List (Int × Int)) (cursor s : Int),
      l.Pairwise (fun a b => a.1 ≤ b.1) →
      (∀ q ∈ l, q.1 ≤ 1440) →
      slotWalk d cursor l = some s →
      cursor ≤ s ∧ s + d ≤ 1440 ∧ (∀ q ∈ l, s + d ≤ q.1 ∨ q.2 ≤ s) ∧
        ∀ p, cursor ≤ p → p + d ≤ 1440 → (∀ q ∈ l, p + d ≤ q.1 ∨ q.2 ≤ p) →
          s ≤ p := by
  intro l
  induction l with
  | nil =>
    intro cursor s _ _ hw
    simp only [slotWalk, day_end_eq] at hw
    by_cases hc : 1440 - cursor ≥ d
    · rw [if_pos hc] at hw
      injection hw with hw
      subst hw
      exact ⟨le_refl _, by omega, by simp, fun p hp _ _ => hp⟩
    · rw [if_neg hc] at hw
      exact Option.noConfusion hw
  | cons q rest ih =>
    intro cursor s hpair hstarts hw
    obtain ⟨a, b⟩ := q
    rcases List.pairwise_cons.mp hpair with ⟨hhead, hrest⟩
    have hstarts' : ∀ q ∈ rest, q.1 ≤ 1440 := fun q hq => hstarts q (List.mem_cons_of_mem _ hq)
    have ha1440 : a ≤ 1440 := hstarts (a, b) (List.mem_cons_self _ _)
    simp only [slotWalk] at hw
    by_cases hbe : b ≤ cursor
    · rw [if_pos hbe] at hw
      obtain ⟨h1, h2, h3, h4⟩ := ih cursor s hrest hstarts' hw
      refine ⟨h1, h2, ?_, ?_⟩
      · intro q hq
        rcases List.mem_cons.mp hq with rfl | hq
        · exact Or.inr (by omega)
        · exact h3 q hq
      · intro p hp hp1440 hfree
        exact h4 p hp hp1440 (fun q hq => hfree q (List.mem_cons_of_mem _ hq))
    · rw [if_neg hbe] at hw
      by_cases hgap : a > cursor ∧ a - cursor ≥ d
      · rw [if_pos hgap] at hw
        injection hw with hw
        subst hw
        refine ⟨le_refl _, by omega, ?_, fun p hp _ _ => hp⟩
        intro q hq
        rcases List.mem_cons.mp hq with rfl | hq
        · exact Or.inl (by omega)
        · exact Or.inl (by have := hhead q hq; simp at this; omega)
      · rw [if_neg hgap] at hw
        obtain ⟨h1, h2, h3, h4⟩ := ih (max cursor b) s hrest hstarts' hw
        have hcs : cursor ≤ s := le_trans (le_max_left _ _) h1
        refine ⟨hcs, h2, ?_, ?_⟩
        · intro q hq
          rcases List.mem_cons.mp hq with rfl | hq
          · exact Or.inr (le_trans (le_max_right _ _) h1)
          · exact h3 q hq
        · intro p hp hp1440 hfree
          by_cases hpc : max cursor b ≤ p
          · exact h4 p hpc hp1440 (fun q hq => hfree q (List.mem_cons_of_mem _ hq))
          · exfalso
            have hpb : p < b := by omega
            have := hfree (a, b) (List.mem_cons_self _ _)
            simp only at this
            rcases this with hfa | hfb
            · push_neg at hgap
              omega
            · omega

theorem slotWalk_none {d : Int} (hd : 0 < d) :
    ∀ (l : List (Int × Int)) (cursor : Int),
      slotWalk d cursor l = none →
      ∀ p, cursor ≤ p → p + d ≤ 1440 →
        (∀ q ∈ l, p + d ≤ q.1 ∨ q.2 ≤ p) → False := by
  intro l
  induction l with
  | nil =>
    intro cursor hw p hp hp1440 _
    simp only [slotWalk, day_end_eq] at hw
    by_cases hc : 1440 - cursor ≥ d
    · rw [if_pos hc] at hw; exact Option.noConfusion hw
    · omega
  | cons q rest ih =>
    intro cursor hw p hp hp1440 hfree
    obtain ⟨a, b⟩ := q
    simp only [slotWalk] at hw
    by_cases hbe : b ≤ cursor
    · rw [if_pos hbe] at hw
      exact ih cursor hw p hp hp1440 (fun q hq => hfree q (List.mem_cons_of_mem _ hq))
    · rw [if_neg hbe] at hw
      by_cases hgap : a > cursor ∧ a - cursor ≥ d
      · rw [if_pos hgap] at hw; exact Option.noConfusion hw
      · rw [if_neg hgap] at hw
        by_cases hpc : max cursor b ≤ p
        · exact ih (max cursor b) hw p hpc hp1440
            (fun q hq => hfree q (List.mem_cons_of_mem _ hq))
        · have hpb : p < b := by omega
          have := hfree (a, b) (List.mem_cons_self _ _)
          simp only at this
          rcases this with hfa | hfb
          · push_neg at hgap
            omega
          · omega

theorem pairLe_total : ∀ a b : Int × Int, pairLe a b = false → pairLe b a = true := by
  intro a b h
  simp only [pairLe, decide_eq_false_iff_not, not_le] at h
  simp only [pairLe, decide_eq_true_eq]
  omega

theorem pairLe_trans : ∀ a b c : Int × Int,
    pairLe a b = true → pairLe b c = true → pairLe a c = true := by
  intro a b c hab hbc
  simp only [pairLe, decide_eq_true_eq] at hab hbc ⊢
  omega

theorem find_first_slot_nonpos {occ : List (Int × Int)} {ds d : Int}
    (hd : d ≤ 0) : find_first_slot occ ds d = none := by
  simp [find_first_slot, hd]

theorem find_first_slot_pos {occ : List (Int × Int)} {ds d : Int}
    (hd : 0 < d) :
    find_first_slot occ ds d = slotWalk d ds (sortBy pairLe occ) := by
  have : ¬ d ≤ 0 := by omega
  simp [find_first_slot, this]

theorem find_first_slot_some_spec {occ : List (Int × Int)} {ds d s : Int}
    (hstarts : ∀ q ∈ occ, q.1 ≤ 1440)
    (h : find_first_slot occ ds d = some s) :
    0 < d ∧ FitsAt occ ds d s ∧ ∀ p, FitsAt occ ds d p → s ≤ p := by
  have hd : 0 < d := by
    by_contra hc
    push_neg at hc
    rw [find_first_slot_nonpos hc] at h
    exact Option.noConfusion h
  rw [find_first_slot_pos hd] at h
  have hperm := sortBy_perm pairLe occ
  have hpair : (sortBy pairLe occ).Pairwise (fun a b : Int × Int => a.1 ≤ b.1) :=
    (sortBy_pairwise pairLe pairLe_total pairLe_trans occ).imp
      (fun hx => by simpa [pairLe] using hx)
  have hstarts' : ∀ q ∈ sortBy pairLe occ, q.1 ≤ 1440 :=
    fun q hq => hstarts q (hperm.mem_iff.mp hq)
  obtain ⟨h1, h2, h3, h4⟩ := slotWalk_some hd _ ds s hpair hstarts' h
  refine ⟨hd, ⟨h1, h2, fun q hq => h3 q (hperm.mem_iff.mpr hq)⟩, ?_⟩
  intro p hp
  obtain ⟨hp1, hp2, hp3⟩ := hp
  exact h4 p hp1 hp2 (fun q hq => hp3 q (hperm.mem_iff.mp hq))

theorem find_first_slot_none_spec {occ : List (Int × Int)} {ds d : Int}
    (hd : 0 < d) (h : find_first_slot occ ds d = none) :
    ∀ p, ¬ FitsAt occ ds d p := by
  rw [find_first_slot_pos hd] at h
  have hperm := sortBy_perm pairLe occ
  rintro p ⟨hp1, hp2, hp3⟩
  exact slotWalk_none hd _ ds h p hp1 hp2 (fun q hq => hp3 q (hperm.mem_iff.mp hq))

/-- The occupied-set pair recorded for an interval. -/
def spanOf (iv : Interval) : Int × Int := (iv.start, iv.stop)

theorem packLoop_inv (ds : Int) :
    ∀ (ts : List Task) (occ : List (Int × Int)) (pk : List Interval) (cnt : Nat),
      (∀ q ∈ occ, q.1 ≤ 1439) →
      ∃ new : List Interval,
        (packLoop ds ts occ pk cnt).1 = pk ++ new ∧
        (packLoop ds ts occ pk cnt).2.1 = occ ++ new.map spanOf ∧
        (packLoop ds ts occ pk cnt).2.2 + new.length = cnt + ts.length ∧
        new.Pairwise (fun a b => a.stop ≤ b.start ∨ b.stop ≤ a.start) ∧
        ∀ iv ∈ new,
          ds ≤ iv.start ∧ 0 < durationMinutes iv.task ∧
            iv.stop = iv.start + durationMinutes iv.task ∧ iv.stop ≤ 1440 ∧
            iv.packed = true ∧
            ∀ q ∈ occ, iv.stop ≤ q.1 ∨ q.2 ≤ iv.start := by
  intro ts
  induction ts with
  | nil =>
    intro occ pk cnt hocc
    exact ⟨[], by simp [packLoop], by simp [packLoop], by simp [packLoop], by simp,
      by simp⟩
  | cons t ts ih =>
    intro occ pk cnt hocc
    have hocc1440 : ∀ q ∈ occ, q.1 ≤ 1440 := fun q hq => by
      have := hocc q hq; omega
    rcases hslot : find_first_slot occ ds (durationMinutes t) with _ | slot
    · obtain ⟨new, h1, h2, h3, h4, h5⟩ := ih occ pk (cnt + 1) hocc
      refine ⟨new, ?_, ?_, ?_, h4, h5⟩
      · simpa [packLoop, hslot] using h1
      · simpa [packLoop, hslot] using h2
      · have : (packLoop ds (t :: ts) occ pk cnt).2.2 =
            (packLoop ds ts occ pk (cnt + 1)).2.2 := by
          simp [packLoop, hslot]
        rw [this]
        simp only [List.length_cons]
        omega
    · obtain ⟨hd, ⟨hds, h1440, hdisj⟩, _⟩ :=
        find_first_slot_some_spec hocc1440 hslot
      have hmin : min day_end (slot + durationMinutes t) = slot + durationMinutes t := by
        rw [day_end_eq]; omega
      have hocc' : ∀ q ∈ occ ++ [(slot, slot + durationMinutes t)], q.1 ≤ 1439 := by
        intro q hq
        rcases List.mem_append.mp hq with hq | hq
        · exact hocc q hq
        · simp only [List.mem_singleton] at hq
          subst hq
          simp only
          omega
      obtain ⟨new, h1, h2, h3, h4, h5⟩ :=
        ih (occ ++ [(slot, slot + durationMinutes t)])
          (pk ++ [⟨slot, slot + durationMinutes t, t, true⟩]) cnt hocc'
      have hstep : packLoop ds (t :: ts) occ pk cnt =
          packLoop ds ts (occ ++ [(slot, slot + durationMinutes t)])
            (pk ++ [⟨slot, slot + durationMinutes t, t, true⟩]) cnt := by
        simp [packLoop, hslot, hmin]
      refine ⟨⟨slot, slot + durationMinutes t, t, true⟩ :: new, ?_, ?_, ?_, ?_, ?_⟩
      · rw [hstep, h1]
        simp
      · rw [hstep, h2]
        simp [spanOf]
      · rw [hstep]
        simp only [List.length_cons] at h3 ⊢
        omega
      · refine List.pairwise_cons.mpr ⟨?_, h4⟩
        intro iv hiv
        have := (h5 iv hiv).2.2.2.2.2 (slot, slot + durationMinutes t)
          (List.mem_append.mpr (Or.inr (List.mem_singleton.mpr rfl)))
        simp only at this
        tauto
      · intro iv hiv
        rcases List.mem_cons.mp hiv with rfl | hiv
        · exact ⟨hds, hd, rfl, by simpa using h1440, rfl,
            fun q hq => hdisj q hq⟩
        · obtain ⟨g1, g2, g3, g4, g5, g6⟩ := h5 iv hiv
          exact ⟨g1, g2, g3, g4, g5,
            fun q hq => g6 q (List.mem_append.mpr (Or.inl hq))⟩

theorem fixed_spans_bounds (tasks : List Task) :
    ∀ q ∈ (fixedIntervals tasks).map (fun iv => (iv.start, iv.stop)), q.1 ≤ 1439 := by
  intro q hq
  obtain ⟨iv, hiv, rfl⟩ := List.mem_map.mp hq
  exact (fixed_bounds hiv).2.1

theorem packedIntervals_props (tasks : List Task) (ds : Int) :
    (packedIntervals tasks ds).Pairwise
      (fun a b => a.stop ≤ b.start ∨ b.stop ≤ a.start) ∧
    ∀ iv ∈ packedIntervals tasks ds,
      ds ≤ iv.start ∧ 0 < durationMinutes iv.task ∧
        iv.stop = iv.start + durationMinutes iv.task ∧ iv.stop ≤ 1440 ∧
        iv.packed = true ∧
        ∀ jv ∈ fixedIntervals tasks, iv.stop ≤ jv.start ∨ jv.stop ≤ iv.start := by
  obtain ⟨new, h1, h2, h3, h4, h5⟩ :=
    packLoop_inv ds (sortUnscheduled (unscheduledTasks tasks))
      ((fixedIntervals tasks).map (fun iv => (iv.start, iv.stop))) [] 0
      (fixed_spans_bounds tasks)
  have hpk : packedIntervals tasks ds = new := by
    simpa [packedIntervals, packedResult] using h1
  rw [hpk]
  refine ⟨h4, ?_⟩
  intro iv hiv
  obtain ⟨g1, g2, g3, g4, g5, g6⟩ := h5 iv hiv
  refine ⟨g1, g2, g3, g4, g5, ?_⟩
  intro jv hjv
  exact g6 (jv.start, jv.stop) (List.mem_map.mpr ⟨jv, hjv, rfl⟩)

/-- C10: every packed interval starts at or after the day start, is never
truncated (`end = start + duration ≤ 1440`), and overlaps no fixed interval
and no other packed interval — for every task list and day start, even when
fixed intervals overlap each other. -/
theorem packed_intervals_spec (tasks : List Task) (ds : Int) :
    (packedIntervals tasks ds).Pairwise
      (fun a b => a.stop ≤ b.start ∨ b.stop ≤ a.start) ∧
    ∀ iv ∈ packedIntervals tasks ds,
      ds ≤ iv.start ∧ 0 < durationMinutes iv.task ∧
        iv.stop = iv.start + durationMinutes iv.task ∧ iv.stop ≤ 1440 ∧
        iv.packed = true ∧
        ∀ jv ∈ fixedIntervals tasks, iv.stop ≤ jv.start ∨ jv.stop ≤ iv.start :=
  packedIntervals_props tasks ds

/-- C4 (amended): whenever the fixed intervals are pairwise disjoint, the
packer's occupied set is pairwise disjoint at every step of the packing
loop (in particular at the moment each new task is placed). -/
theorem occupied_state_disjoint (tasks : List Task) (ds : Int) (n : Nat)
    (hfix : (fixedIntervals tasks).Pairwise
      (fun a b => a.stop ≤ b.start ∨ b.stop ≤ a.start)) :
    (occupiedState tasks ds n).Pairwise
      (fun q r => q.2 ≤ r.1 ∨ r.2 ≤ q.1) := by
  obtain ⟨new, h1, h2, h3, h4, h5⟩ :=
    packLoop_inv ds ((sortUnscheduled (unscheduledTasks tasks)).take n)
      ((fixedIntervals tasks).map (fun iv => (iv.start, iv.stop))) [] 0
      (fixed_spans_bounds tasks)
  have hstate : occupiedState tasks ds n =
      (fixedIntervals tasks).map (fun iv => (iv.start, iv.stop)) ++
        new.map spanOf := by
    simpa [occupiedState] using h2
  rw [hstate]
  refine List.pairwise_append.mpr ⟨?_, ?_, ?_⟩
  · exact List.pairwise_map.mpr (hfix.imp (fun h => h))
  · exact List.pairwise_map.mpr (h4.imp (fun h => by
      simp only [spanOf]
      tauto))
  · intro q hq r hr
    obtain ⟨iv, hiv, rfl⟩ := List.mem_map.mp hr
    have := (h5 iv hiv).2.2.2.2.2 q hq
    simp only [spanOf]
    tauto

theorem unschedKeyLe_iff (a b : Task) :
    unschedKeyLe a b = true ↔
      (typeRank a.task_type < typeRank b.task_type ∨
       (typeRank a.task_type = typeRank b.task_type ∧ a.id ≤ b.id)) := by
  simp [unschedKeyLe, Bool.or_eq_true, Bool.and_eq_true, decide_eq_true_eq,
    beq_iff_eq]

theorem unschedKeyLe_total :
    ∀ a b : Task, unschedKeyLe a b = false → unschedKeyLe b a = true := by
  intro a b h
  have h1 : ¬ (typeRank a.task_type < typeRank b.task_type ∨
      (typeRank a.task_type = typeRank b.task_type ∧ a.id ≤ b.id)) := by
    rw [← unschedKeyLe_iff]
    simp [h]
  rw [unschedKeyLe_iff]
  push_neg at h1
  obtain ⟨h11, h12⟩ := h1
  rcases Nat.lt_trichotomy (typeRank b.task_type) (typeRank a.task_type) with hlt | heq | hgt
  · exact Or.inl hlt
  · refine Or.inr ⟨heq, ?_⟩
    have := h12 heq.symm
    omega
  · exact absurd hgt (Nat.not_lt.mpr h11)

theorem unschedKeyLe_trans :
    ∀ a b c : Task, unschedKeyLe a b = true → unschedKeyLe b c = true →
      unschedKeyLe a c = true := by
  intro a b c hab hbc
  rw [unschedKeyLe_iff] at hab hbc ⊢
  rcases hab with hab | ⟨hab1, hab2⟩ <;> rcases hbc with hbc | ⟨hbc1, hbc2⟩
  · exact Or.inl (lt_trans hab hbc)
  · exact Or.inl (by omega)
  · exact Or.inl (by omega)
  · exact Or.inr ⟨hab1.trans hbc1, le_trans hab2 hbc2⟩

theorem typeRank_unknown {ty : List Char} (h : ty ∉ TASK_TYPE_ORDER) :
    typeRank ty = 5 := by
  unfold typeRank
  rw [List.findIdx_eq_length_of_false]
  · rfl
  · intro x hx
    rw [beq_eq_false_iff_ne]
    rintro rfl
    exact h hx

/-- C3: the packer processes unscheduled tasks in category-rank order
(focus, main, small, pleasure, reserved, unknown last) with id tie-break
(stably), and `find_first_slot` returns exactly the least feasible slot —
failing precisely on non-positive durations or when no slot fits — while
every processed task is either placed or counted as not placed. -/
theorem packer_spec :
    (typeRank "focus".data = 0 ∧ typeRank "main".data = 1 ∧
     typeRank "small".data = 2 ∧ typeRank "pleasure".data = 3 ∧
     typeRank "reserved".data = 4 ∧
     ∀ ty, ty ∉ TASK_TYPE_ORDER → typeRank ty = 5) ∧
    (∀ l : List Task,
      (sortUnscheduled l).Perm l ∧
      (sortUnscheduled l).Pairwise (fun a b =>
        typeRank a.task_type < typeRank b.task_type ∨
        (typeRank a.task_type = typeRank b.task_type ∧ a.id ≤ b.id)) ∧
      ∀ (r : Nat) (i : Int),
        (sortUnscheduled l).filter
            (fun t => typeRank t.task_type == r && t.id == i) =
          l.filter (fun t => typeRank t.task_type == r && t.id == i)) ∧
    (∀ (occ : List (Int × Int)) (ds d : Int), d ≤ 0 →
      find_first_slot occ ds d = none) ∧
    (∀ (occ : List (Int × Int)) (ds d s : Int), (∀ q ∈ occ, q.1 ≤ 1440) →
      find_first_slot occ ds d = some s →
      FitsAt occ ds d s ∧ ∀ p, FitsAt occ ds d p → s ≤ p) ∧
    (∀ (occ : List (Int × Int)) (ds d : Int), 0 < d →
      find_first_slot occ ds d = none → ∀ p, ¬ FitsAt occ ds d p) ∧
    (∀ (tasks : List Task) (ds : Int),
      (packedIntervals tasks ds).length + notPlacedCount tasks ds =
        (unscheduledTasks tasks).length) := by
  refine ⟨⟨by decide, by decide, by decide, by decide, by decide,
    fun ty h => typeRank_unknown h⟩, ?_, ?_, ?_, ?_, ?_⟩
  · intro l
    refine ⟨sortBy_perm _ _, ?_, ?_⟩
    · exact (sortBy_pairwise unschedKeyLe unschedKeyLe_total unschedKeyLe_trans l).imp
        (fun h => (unschedKeyLe_iff _ _).mp h)
    · intro r i
      refine sortBy_filter unschedKeyLe _ ?_ l
      intro x y hx hy
      simp only [Bool.and_eq_true, beq_iff_eq] at hx hy
      rw [unschedKeyLe_iff]
      exact Or.inr ⟨by omega, by omega⟩
  · intro occ ds d hd
    exact find_first_slot_nonpos hd
  · intro occ ds d s hstarts h
    obtain ⟨_, h2, h3⟩ := find_first_slot_some_spec hstarts h
    exact ⟨h2, h3⟩
  · intro occ ds d hd h
    exact find_first_slot_none_spec hd h
  · intro tasks ds
    obtain ⟨new, h1, h2, h3, h4, h5⟩ :=
      packLoop_inv ds (sortUnscheduled (unscheduledTasks tasks))
        ((fixedIntervals tasks).map (fun iv => (iv.start, iv.stop))) [] 0
        (fixed_spans_bounds tasks)
    have hpk : packedIntervals tasks ds = new := by
      simpa [packedIntervals, packedResult] using h1
    have hcnt : notPlacedCount tasks ds =
        (packLoop ds (sortUnscheduled (unscheduledTasks tasks))
          ((fixedIntervals tasks).map (fun iv => (iv.start, iv.stop))) [] 0).2.2 := rfl
    have hlen : (sortUnscheduled (unscheduledTasks tasks)).length =
        (unscheduledTasks tasks).length :=
      (sortBy_perm _ _).length_eq
    rw [hpk, hcnt]
    omega

/-- The time range covered by a block (`none` for an overlap marker). -/
def blockSpan : Block → Option (Int × Int)
  | Block.empty s e => some (s, e)
  | Block.task s e _ _ => some (s, e)
  | Block.overlap _ => none

/-- Does a timeline element render a time range (empty or task block)? -/
def isSpanBlock (b : Block) : Bool := (blockSpan b).isSome

/-- Decides that a block list is a contiguous chain from `c` to `1440`:
the first block starts at `c`, consecutive blocks share endpoints, each
block is non-degenerate, and the last block ends at `1440`. -/
def chainFromB : Int → List Block → Bool
  | c, [] => c == 1440
  | c, b :: bs =>
    match blockSpan b with
    | some (s, e) => s == c && decide (c < e) && chainFromB e bs
    | none => false

/-- The emitted empty/task blocks (overlap markers removed). -/
def timelineBlocks (tasks : List Task) (setting : List Char) : List Block :=
  ((refresh_timeline tasks setting).1).filter isSpanBlock

/-- The `(start, end)` ranges of the emitted task blocks, in order. -/
def taskSpans : List Block → List (Int × Int)
  | [] => []
  | Block.task s e _ _ :: rest => (s, e) :: taskSpans rest
  | _ :: rest => taskSpans rest

/-- Task A of the spec's Scenario A: fixed at 10:00 for one hour. -/
def sampleA : Task := ⟨1, [], "main".data, "A".data, 1, "10:00".data, 0, false⟩

/-- Task B of the spec's Scenario A: unscheduled, two hours. -/
def sampleB : Task := ⟨2, [], "main".data, "B".data, 2, [], 0, false⟩

/-- Task D of the spec's Scenario C: fixed at 09:00 for one hour. -/
def sampleD : Task := ⟨1, [], "main".data, "D".data, 1, "09:00".data, 0, false⟩

/-- Task E of the spec's Scenario C: fixed at 09:30 for one hour. -/
def sampleE : Task := ⟨2, [], "main".data, "E".data, 1, "09:30".data, 0, false⟩

/-- A fixed task lying entirely before a 09:00 day start. -/
def sampleF : Task := ⟨1, [], "main".data, "F".data, 1, "06:00".data, 0, false⟩

/-- An unscheduled one-hour task. -/
def sampleU : Task := ⟨3, [], "small".data, "U".data, 1, [], 0, false⟩

theorem add_empty_block_pos {s e : Int} (h : s < e) :
    add_empty_block s e = [Block.empty s e] := by
  simp [add_empty_block, not_le.mpr h]

theorem assembleLoop_chain (ds : Int) :
    ∀ (l : List Interval) (cursor : Int),
      ds ≤ cursor → cursor ≤ 1440 →
      l.Pairwise (fun a b => a.start ≤ b.start) →
      l.Pairwise (fun a b => a.stop ≤ b.start ∨ b.stop ≤ a.start) →
      (∀ iv ∈ l, iv.start < iv.stop ∧ iv.stop ≤ 1440 ∧ cursor ≤ max ds iv.start) →
      chainFromB cursor (assembleLoop ds cursor l) = true ∧
      ∀ b ∈ assembleLoop ds cursor l, isSpanBlock b = true := by
  intro l
  induction l with
  | nil =>
    intro cursor h1 h2 _ _ _
    by_cases hc : cursor < day_end
    · have hlt : cursor < 1440 := by rw [day_end_eq] at hc; exact hc
      have : assembleLoop ds cursor [] = [Block.empty cursor 1440] := by
        simp only [assembleLoop, day_end_eq]
        rw [if_pos hlt]
        exact add_empty_block_pos hlt
      rw [this]
      constructor
      · simp [chainFromB, blockSpan, hlt]
      · intro b hb
        simp only [List.mem_singleton] at hb
        subst hb
        rfl
    · have hc1440 : cursor = 1440 := by rw [day_end_eq] at hc; omega
      have : assembleLoop ds cursor [] = [] := by
        simp only [assembleLoop, if_neg hc]
      rw [this]
      constructor
      · simp [chainFromB, hc1440]
      · intro b hb
        cases hb
  | cons iv rest ih =>
    intro cursor h1 h2 hsort hdisj hbound
    obtain ⟨hivs, hivstop, hivcur⟩ := hbound iv (List.mem_cons_self _ _)
    rcases List.pairwise_cons.mp hsort with ⟨hs_head, hs_rest⟩
    rcases List.pairwise_cons.mp hdisj with ⟨hd_head, hd_rest⟩
    by_cases hskip : iv.stop ≤ ds
    · rw [show assembleLoop ds cursor (iv :: rest) = assembleLoop ds cursor rest from by
        simp [assembleLoop, hskip]]
      exact ih cursor h1 h2 hs_rest hd_rest
        (fun jv hjv => hbound jv (List.mem_cons_of_mem _ hjv))
    · push_neg at hskip
      have hs_eq : (if iv.start < ds then ds else iv.start) = max ds iv.start := by
        by_cases hlt : iv.start < ds
        · rw [if_pos hlt]
          exact (max_eq_left (le_of_lt hlt)).symm
        · rw [if_neg hlt]
          exact (max_eq_right (not_lt.mp hlt)).symm
      have hcs : cursor ≤ max ds iv.start := hivcur
      have hslt : max ds iv.start < iv.stop := max_lt hskip hivs
      have hcur' : max cursor iv.stop = iv.stop :=
        max_eq_right (le_of_lt (lt_of_le_of_lt hcs hslt))
      have hrest : ∀ jv ∈ rest,
          jv.start < jv.stop ∧ jv.stop ≤ 1440 ∧ iv.stop ≤ max ds jv.start := by
        intro jv hjv
        obtain ⟨g1, g2, _⟩ := hbound jv (List.mem_cons_of_mem _ hjv)
        refine ⟨g1, g2, ?_⟩
        rcases hd_head jv hjv with hdd | hdd
        · exact le_trans hdd (le_trans (le_max_right _ _) (le_refl _))
        · exact absurd hdd (by have := hs_head jv hjv; omega)
      obtain ⟨ihc, ihspan⟩ := ih iv.stop (le_of_lt hskip) hivstop hs_rest hd_rest hrest
      have hstep : assembleLoop ds cursor (iv :: rest) =
          (if max ds iv.start > cursor then
            add_empty_block cursor (max ds iv.start) else []) ++
          (if max ds iv.start < cursor then [Block.overlap (max ds iv.start)] else []) ++
          [Block.task (max ds iv.start) iv.stop iv.task iv.packed] ++
          assembleLoop ds (max cursor iv.stop) rest := by
        simp only [assembleLoop, if_neg (not_le.mpr hskip), hs_eq]
      have hnolt : ¬ max ds iv.start < cursor := not_lt.mpr hcs
      rw [hstep, hcur', if_neg hnolt]
      by_cases hgt : max ds iv.start > cursor
      · rw [if_pos hgt, add_empty_block_pos hgt]
        constructor
        · simp [chainFromB, blockSpan, hgt, hslt, ihc]
        · intro b hb
          simp only [List.nil_append, List.cons_append, List.singleton_append,
            List.mem_cons] at hb
          rcases hb with rfl | rfl | hb
          · rfl
          · rfl
          · exact ihspan b hb
      · have hge : max ds iv.start = cursor := by omega
        rw [if_neg hgt]
        constructor
        · have hslt2 : cursor < iv.stop := by omega
          simp [chainFromB, blockSpan, hge, hslt2, ihc]
        · intro b hb
          simp only [List.nil_append, List.cons_append, List.singleton_append,
            List.mem_cons] at hb
          rcases hb with rfl | hb
          · rfl
          · exact ihspan b hb

theorem day_start_bounds (setting : List Char) :
    0 ≤ day_start_of_setting setting ∧ day_start_of_setting setting ≤ 1439 := by
  unfold day_start_of_setting
  rcases hp : parse_hhmm_to_minutes setting with _ | m
  · norm_num
  · exact parse_hhmm_bounds hp

theorem disj_symm : Symmetric
    (fun a b : Interval => a.stop ≤ b.start ∨ b.stop ≤ a.start) := by
  rintro a b (h | h)
  · exact Or.inr h
  · exact Or.inl h

theorem allIntervals_facts (tasks : List Task) (ds : Int)
    (hfix : (fixedIntervals tasks).Pairwise
      (fun a b => a.stop ≤ b.start ∨ b.stop ≤ a.start)) :
    (allIntervals tasks ds).Pairwise (fun a b => a.start ≤ b.start) ∧
    (allIntervals tasks ds).Pairwise
      (fun a b => a.stop ≤ b.start ∨ b.stop ≤ a.start) ∧
    ∀ iv ∈ allIntervals tasks ds, iv.start < iv.stop ∧ iv.stop ≤ 1440 := by
  have hperm := sortBy_perm startLe (fixedIntervals tasks ++ packedIntervals tasks ds)
  obtain ⟨hpk_pair, hpk⟩ := packedIntervals_props tasks ds
  refine ⟨?_, ?_, ?_⟩
  · exact (sortBy_pairwise startLe startLe_total startLe_trans _).imp
      (fun h => by simpa [startLe] using h)
  · refine (hperm.pairwise_iff (fun hx => disj_symm hx)).mpr ?_
    refine List.pairwise_append.mpr ⟨hfix, hpk_pair, ?_⟩
    intro a ha b hb
    rcases (hpk b hb).2.2.2.2.2 a ha with h | h
    · exact Or.inr h
    · exact Or.inl h
  · intro iv hiv
    rcases List.mem_append.mp (hperm.mem_iff.mp hiv) with h | h
    · obtain ⟨_, _, g3, g4, _⟩ := fixed_bounds h
      exact ⟨g3, g4⟩
    · obtain ⟨_, g2, g3, g4, _⟩ := hpk iv h
      exact ⟨by omega, g4⟩

theorem timeline_chain_core (tasks : List Task) (setting : List Char)
    (hfix : (fixedIntervals tasks).Pairwise
      (fun a b => a.stop ≤ b.start ∨ b.stop ≤ a.start)) :
    chainFromB (day_start_of_setting setting) (timelineBlocks tasks setting) = true := by
  obtain ⟨hds0, hds1439⟩ := day_start_bounds setting
  by_cases hemp : (allIntervals tasks (day_start_of_setting setting)).isEmpty
  · have hblocks : (refresh_timeline tasks setting).1 =
        [Block.empty (day_start_of_setting setting) 1440] := by
      simp only [refresh_timeline, hemp, if_true, day_end_eq]
      exact add_empty_block_pos (by omega)
    unfold timelineBlocks
    rw [hblocks]
    simp only [List.filter]
    have : chainFromB (day_start_of_setting setting)
        [Block.empty (day_start_of_setting setting) 1440] = true := by
      simp [chainFromB, blockSpan]
      omega
    simpa [isSpanBlock, blockSpan] using this
  · have hblocks : (refresh_timeline tasks setting).1 =
        assembleLoop (day_start_of_setting setting) (day_start_of_setting setting)
          (allIntervals tasks (day_start_of_setting setting)) := by
      simp [refresh_timeline, hemp]
    obtain ⟨hsort, hdisj, hbounds⟩ :=
      allIntervals_facts tasks (day_start_of_setting setting) hfix
    obtain ⟨hchain, hspan⟩ := assembleLoop_chain (day_start_of_setting setting)
      (allIntervals tasks (day_start_of_setting setting))
      (day_start_of_setting setting) (le_refl _) (by omega) hsort hdisj
      (fun iv hiv => ⟨(hbounds iv hiv).1, (hbounds iv hiv).2, le_max_left _ _⟩)
    unfold timelineBlocks
    rw [hblocks, List.filter_eq_self.mpr (fun b hb => hspan b hb)]
    exact hchain

theorem chainFromB_task_bound :
    ∀ (bs : List Block) (c : Int), chainFromB c bs = true →
      ∀ q ∈ taskSpans bs, c ≤ q.1 ∧ q.1 < q.2 := by
  intro bs
  induction bs with
  | nil =>
    intro c _ q hq
    simp [taskSpans] at hq
  | cons b rest ih =>
    intro c hc q hq
    cases b with
    | empty s e =>
      simp only [chainFromB, blockSpan, Bool.and_eq_true, beq_iff_eq,
        decide_eq_true_eq] at hc
      obtain ⟨⟨hs, hce⟩, hchain⟩ := hc
      have hq' : q ∈ taskSpans rest := by simpa [taskSpans] using hq
      have := ih e hchain q hq'
      exact ⟨by omega, this.2⟩
    | task s e t p =>
      simp only [chainFromB, blockSpan, Bool.and_eq_true, beq_iff_eq,
        decide_eq_true_eq] at hc
      obtain ⟨⟨hs, hce⟩, hchain⟩ := hc
      rcases List.mem_cons.mp (by simpa [taskSpans] using hq) with rfl | hq'
      · exact ⟨by omega, by omega⟩
      · have := ih e hchain q hq'
        exact ⟨by omega, this.2⟩
    | overlap s =>
      simp [chainFromB, blockSpan] at hc

theorem chainFromB_spans_pairwise :
    ∀ (bs : List Block) (c : Int), chainFromB c bs = true →
      (taskSpans bs).Pairwise (fun q r => q.2 ≤ r.1 ∨ r.2 ≤ q.1) := by
  intro bs
  induction bs with
  | nil =>
    intro c _
    simp [taskSpans]
  | cons b rest ih =>
    intro c hc
    cases b with
    | empty s e =>
      simp only [chainFromB, blockSpan, Bool.and_eq_true, beq_iff_eq,
        decide_eq_true_eq] at hc
      obtain ⟨⟨hs, hce⟩, hchain⟩ := hc
      simpa [taskSpans] using ih e hchain
    | task s e t p =>
      simp only [chainFromB, blockSpan, Bool.and_eq_true, beq_iff_eq,
        decide_eq_true_eq] at hc
      obtain ⟨⟨hs, hce⟩, hchain⟩ := hc
      have hpw : (taskSpans rest).Pairwise (fun q r => q.2 ≤ r.1 ∨ r.2 ≤ q.1) :=
        ih e hchain
      have hhead : ∀ r ∈ taskSpans rest, e ≤ r.1 ∧ r.1 < r.2 :=
        chainFromB_task_bound rest e hchain
      show ((s, e) :: taskSpans rest).Pairwise (fun q r => q.2 ≤ r.1 ∨ r.2 ≤ q.1)
      refine List.pairwise_cons.mpr ⟨?_, hpw⟩
      intro r hr
      exact Or.inl (hhead r hr).1
    | overlap s =>
      simp [chainFromB, blockSpan] at hc

theorem taskSpans_filter (bs : List Block) :
    taskSpans (bs.filter isSpanBlock) = taskSpans bs := by
  induction bs with
  | nil => rfl
  | cons b rest ih =>
    cases b <;> simp [taskSpans, isSpanBlock, blockSpan, List.filter_cons, ih]

theorem assembleLoop_mem (ds : Int) :
    ∀ (l : List Interval) (cursor : Int) (iv : Interval),
      iv ∈ l → ds ≤ iv.start → iv.start < iv.stop →
      Block.task iv.start iv.stop iv.task iv.packed ∈ assembleLoop ds cursor l := by
  intro l
  induction l with
  | nil =>
    intro cursor iv h
    cases h
  | cons jv rest ih =>
    intro cursor iv hmem hds hlt
    rcases List.mem_cons.mp hmem with rfl | hmem
    · have hnskip : ¬ iv.stop ≤ ds := by omega
      have hclip : ¬ iv.start < ds := not_lt.mpr hds
      simp only [assembleLoop, if_neg hnskip, if_neg hclip]
      simp [List.mem_append]
    · by_cases hskip : jv.stop ≤ ds
      · simp only [assembleLoop, if_pos hskip]
        exact ih cursor iv hmem hds hlt
      · simp only [assembleLoop, if_neg hskip]
        have := ih (max cursor jv.stop) iv hmem hds hlt
        simp only [List.mem_append]
        tauto

/-- C1 (amended): for every task list and day-start setting, if the fixed
intervals are pairwise disjoint then the emitted block sequence is a
contiguous, non-degenerate chain covering exactly `[dayStart, 1440]`:
the first block starts at the day start, consecutive blocks satisfy
`end = start`, and the last block ends at 1440. -/
theorem timeline_gapless (tasks : List Task) (setting : List Char)
    (hfix : (fixedIntervals tasks).Pairwise
      (fun a b => a.stop ≤ b.start ∨ b.stop ≤ a.start)) :
    chainFromB (day_start_of_setting setting) (timelineBlocks tasks setting) = true :=
  timeline_chain_core tasks setting hfix

/-- C1 counterexample: with the two overlapping fixed tasks of Scenario C,
the emitted blocks are `task(540,600)`, `task(570,630)`, `empty(630,1440)`,
so consecutive blocks violate `end = start`. -/
theorem timeline_gapless_counterexample :
    chainFromB (day_start_of_setting "09:00".data)
      (timelineBlocks [sampleD, sampleE] "09:00".data) = false := by decide

/-- C1 witness: Scenario A yields a gapless chain. -/
theorem timeline_gapless_witness :
    chainFromB (day_start_of_setting "09:00".data)
      (timelineBlocks [sampleA, sampleB] "09:00".data) = true :=
  timeline_gapless [sampleA, sampleB] "09:00".data (by decide)

/-- C2 (amended): for every task list and day-start setting, if the fixed
intervals are pairwise disjoint then the `(start, end)` ranges of all task
blocks emitted by the assembler are pairwise disjoint. -/
theorem task_blocks_disjoint (tasks : List Task) (setting : List Char)
    (hfix : (fixedIntervals tasks).Pairwise
      (fun a b => a.stop ≤ b.start ∨ b.stop ≤ a.start)) :
    (taskSpans (refresh_timeline tasks setting).1).Pairwise
      (fun q r => q.2 ≤ r.1 ∨ r.2 ≤ q.1) := by
  have hchain := timeline_chain_core tasks setting hfix
  have hpw := chainFromB_spans_pairwise (timelineBlocks tasks setting) _ hchain
  rwa [timelineBlocks, taskSpans_filter] at hpw

/-- C2 counterexample: with the two overlapping fixed tasks of Scenario C,
the task blocks `(540,600)` and `(570,630)` overlap. -/
theorem task_blocks_disjoint_counterexample :
    ¬ (taskSpans (refresh_timeline [sampleD, sampleE] "09:00".data).1).Pairwise
      (fun q r => q.2 ≤ r.1 ∨ r.2 ≤ q.1) := by decide

/-- C2 witness: Scenario A yields pairwise disjoint task blocks. -/
theorem task_blocks_disjoint_witness :
    (taskSpans (refresh_timeline [sampleA, sampleB] "09:00".data).1).Pairwise
      (fun q r => q.2 ≤ r.1 ∨ r.2 ≤ q.1) :=
  task_blocks_disjoint [sampleA, sampleB] "09:00".data (by decide)

/-- C5 (amended): every fixed interval whose start lies at or after the day
start is emitted as a task block with its start and end unchanged, even when
it overlaps another fixed interval; an interval ending at or before the day
start is dropped and one starting before it is clipped. -/
theorem fixed_block_emitted (tasks : List Task) (setting : List Char)
    (iv : Interval) (hiv : iv ∈ fixedIntervals tasks)
    (hds : day_start_of_setting setting ≤ iv.start) :
    Block.task iv.start iv.stop iv.task iv.packed ∈
      (refresh_timeline tasks setting).1 := by
  obtain ⟨_, _, hlt, _, _⟩ := fixed_bounds hiv
  have hmem : iv ∈ allIntervals tasks (day_start_of_setting setting) := by
    unfold allIntervals
    exact (sortBy_perm startLe _).mem_iff.mpr (List.mem_append.mpr (Or.inl hiv))
  have hemp : (allIntervals tasks (day_start_of_setting setting)).isEmpty = false := by
    cases h : (allIntervals tasks (day_start_of_setting setting)).isEmpty
    · rfl
    · rw [List.isEmpty_iff.mp h] at hmem
      cases hmem
  have hblocks : (refresh_timeline tasks setting).1 =
      assembleLoop (day_start_of_setting setting) (day_start_of_setting setting)
        (allIntervals tasks (day_start_of_setting setting)) := by
    simp [refresh_timeline, hemp]
  rw [hblocks]
  exact assembleLoop_mem _ _ _ iv hmem hds hlt

/-- C5 counterexample: a fixed task 06:00-07:00 with day start 09:00 is
classified as the fixed interval `(360, 420)` but silently dropped: no task
block at all is emitted. -/
theorem fixed_block_emitted_counterexample :
    fixedIntervals [sampleF] = [⟨360, 420, sampleF, false⟩] ∧
    taskSpans (refresh_timeline [sampleF] "09:00".data).1 = [] := by decide

/-- C5 witness: the fixed task of Scenario A is emitted unchanged. -/
theorem fixed_block_emitted_witness :
    Block.task 600 660 sampleA false ∈
      (refresh_timeline [sampleA] "09:00".data).1 :=
  fixed_block_emitted [sampleA] "09:00".data ⟨600, 660, sampleA, false⟩
    (by decide) (by decide)

/-- C4 counterexample: with the overlapping fixed tasks of Scenario C plus
one unscheduled task, the occupied set contains the overlapping pairs
`(540,600)` and `(570,630)` at the moment the unscheduled task is placed
(it is placed, at slot 630). -/
theorem occupied_state_disjoint_counterexample :
    ¬ (occupiedState [sampleD, sampleE, sampleU] 540 0).Pairwise
        (fun q r => q.2 ≤ r.1 ∨ r.2 ≤ q.1) ∧
    find_first_slot (occupiedState [sampleD, sampleE, sampleU] 540 0) 540
      (durationMinutes sampleU) = some 630 := by decide

/-- C4 witness: with the disjoint fixed interval of Scenario A, the occupied
set stays pairwise disjoint after a placement. -/
theorem occupied_state_disjoint_witness :
    (occupiedState [sampleA, sampleB] 540 1).Pairwise
      (fun q r => q.2 ≤ r.1 ∨ r.2 ≤ q.1) :=
  occupied_state_disjoint [sampleA, sampleB] 540 1 (by decide)

/-- C10 witness: the packed interval of a lone unscheduled one-hour task at
day start 540 is `(540, 600)`, untruncated and after the day start. -/
theorem packed_intervals_spec_witness :
    (540 : Int) ≤ (540 : Int) ∧ 0 < durationMinutes sampleU ∧
      (600 : Int) = 540 + durationMinutes sampleU ∧ (600 : Int) ≤ 1440 ∧
      (true : Bool) = true ∧
      ∀ jv ∈ fixedIntervals [sampleU],
        (600 : Int) ≤ jv.start ∨ jv.stop ≤ (540 : Int) :=
  (packed_intervals_spec [sampleU] 540).2 ⟨540, 600, sampleU, true⟩ (by decide)

/-- C3 witness: with occupied `[(600,660)]` and a 120-minute task, the
first-fit slot 660 is feasible (and, by the theorem, least). -/
theorem packer_spec_witness :
    FitsAt [((600 : Int), (660 : Int))] 540 120 660 :=
  (packer_spec.2.2.2.1 [((600 : Int), (660 : Int))] 540 120 660
    (by decide) (by decide)).1

end App
